import Mathlib

/-!
Formal model of the OpenSSL-backed elliptic-curve Diffie-Hellman plugin
(src/external/strongswan/src/libstrongswan/plugins/openssl/openssl_ec_diffie_hellman.c).

The big-number and elliptic-curve primitives (BN_bin2bn, BN_bn2bin,
EC_POINT_mul, EC_POINT_is_on_curve, ...) are external collaborators of the
code under verification; they are modelled here by exact arithmetic over
ZMod p together with the standard affine addition formulas, which are related
to the Mathlib Weierstrass-curve group law in order to obtain algebraic facts
such as commutativity of scalar multiplication.  Fallible external calls whose
only failure mode is resource exhaustion (allocation) are modelled by explicit
Boolean success flags threaded through the corresponding functions, mirroring
the goto-error control flow of the C source.
-/

set_option linter.unusedSectionVars false
set_option linter.unusedVariables false

namespace ECDH

/-! ## Definitions -/

/-- Wire bytes: a chunk_t is a byte string; the empty list models the cleared
chunk, since chunk_clear leaves ptr = NULL and len = 0. -/
abbrev Bytes := List Nat

/-- BN_bin2bn: interpret a byte string as a big-endian natural number. -/
def bin2bn (bs : Bytes) : Nat := bs.foldl (fun acc c => acc * 256 + c) 0

/-- Fixed-width big-endian encoding of a natural number, zero padded to len
bytes, as produced by BN_bn2bin written right-aligned into a zeroed buffer of
len bytes (the Field-Element Codec of the spec). -/
def bn2binFixed : Nat → Nat → Bytes
  | 0, _ => []
  | len + 1, n => (n / 256 ^ len % 256) :: bn2binFixed len n

/-- Helper for the bit length: structural recursion on a fuel argument so that
the kernel can evaluate it (a direct recursion on n / 2 would be well-founded
and hence opaque to kernel reduction). -/
def bitLenAux : Nat → Nat → Nat
  | 0, _ => 0
  | fuel + 1, n => if n = 0 then 0 else bitLenAux fuel (n / 2) + 1

/-- Bit length of a natural number, as computed by BN_num_bits and reported by
EC_GROUP_get_degree for a prime field. -/
def bitLen (n : Nat) : Nat := bitLenAux n n

/-- EC_FIELD_ELEMENT_LEN: the byte length of one field element, namely the bit
length of the prime divided by 8, rounded up. -/
def fieldLen (p : Nat) : Nat := (bitLen p + 7) / 8

section CurveDefs

/-- An EC_POINT in affine representation: either the point at infinity (the
state of a point fresh from EC_POINT_new) or a pair of affine coordinates. -/
abbrev AffPoint (F : Type) := Option (F × F)

/-- The short Weierstrass curve y^2 = x^3 + a*x + b over a prime field, as
built by EC_GROUP_new_curve_GFp from the coefficients a and b. -/
def Wc {F : Type} [CommRing F] (a b : F) : WeierstrassCurve.Affine F := ⟨0, 0, 0, a, b⟩

variable {p : Nat} [Fact (Nat.Prime p)]

/-- EC_POINT_is_on_curve: membership test by the curve equation; the point at
infinity belongs to every curve. -/
def isOnCurve (a b : ZMod p) : AffPoint (ZMod p) → Bool
  | none => true
  | some (x, y) => decide (y ^ 2 = x ^ 3 + a * x + b)

/-- Modular inverse by Fermat exponentiation.  This equals the field inverse of
ZMod p (see zinv_eq) but, unlike the extended-gcd inverse, it is defined by
structural recursion and so reduces inside the kernel on concrete inputs. -/
def zinv (x : ZMod p) : ZMod p := if x = 0 then 0 else x ^ (p - 2)

/-- Field division built from the Fermat inverse; equal to the field division
of ZMod p but kernel-reducible. -/
def zdiv (x y : ZMod p) : ZMod p := x * zinv y

/-- The slope of the line through two affine points, written with the same case
split as the Mathlib definition but executable. -/
def eslope (a b x₁ x₂ y₁ y₂ : ZMod p) : ZMod p :=
  if x₁ = x₂ then
    if y₁ = (Wc a b).negY x₂ y₂ then 0
    else zdiv (3 * x₁ ^ 2 + 2 * (Wc a b).a₂ * x₁ + (Wc a b).a₄ - (Wc a b).a₁ * y₁)
      (y₁ - (Wc a b).negY x₁ y₁)
  else zdiv (y₁ - y₂) (x₁ - x₂)

/-- EC point addition in affine coordinates (the group law provided by the
vetted curve library), with the standard chord-tangent formulas. -/
def ecAdd (a b : ZMod p) : AffPoint (ZMod p) → AffPoint (ZMod p) → AffPoint (ZMod p)
  | none, P => P
  | P, none => P
  | some (x₁, y₁), some (x₂, y₂) =>
    if x₁ = x₂ ∧ y₁ = (Wc a b).negY x₂ y₂ then none
    else
      some ((Wc a b).addX x₁ x₂ (eslope a b x₁ x₂ y₁ y₂),
            (Wc a b).addY x₁ x₂ y₁ (eslope a b x₁ x₂ y₁ y₂))

/-- EC scalar multiplication by repeated addition, as performed by
EC_POINT_mul with a single scalar argument. -/
def ecSmul (a b : ZMod p) : Nat → AffPoint (ZMod p) → AffPoint (ZMod p)
  | 0, _ => none
  | n + 1, P => ecAdd a b (ecSmul a b n P) P

/-- Forget the nonsingularity proof of a Mathlib curve point, yielding the
affine representation used by the executable model. -/
def toAff {a b : ZMod p} : (Wc a b).Point → AffPoint (ZMod p)
  | WeierstrassCurve.Affine.Point.zero => none
  | @WeierstrassCurve.Affine.Point.some _ _ _ x y _ => some (x, y)

end CurveDefs

section SessionDefs

variable {p : Nat} [Fact (Nat.Prime p)]

/-- Curve group descriptor owned by a session: coefficients, generator
coordinates and the order of the generator.  The prime p is the type index. -/
structure ECGroup (p : Nat) where
  a : ZMod p
  b : ZMod p
  Gx : ZMod p
  Gy : ZMod p
  q : Nat

/-- Modelled from the spec: openssl_bn_split lives in openssl_util.c, which is
not among the sources under verification.  Per the Point Codec contract the
input is split into two field-element-length chunks, failing unless the length
is exactly 2 × field_byte_length. -/
def openssl_bn_split (flen : Nat) (chunk : Bytes) : Option (Nat × Nat) :=
  if chunk.length = 2 * flen then
    some (bin2bn (chunk.take flen), bin2bn (chunk.drop flen))
  else none

/-- Modelled from the spec: openssl_bn_cat lives in openssl_util.c, which is
not among the sources under verification.  It concatenates fixed-width
big-endian encodings of the given numbers, omitting the second one when that
BIGNUM argument is NULL. -/
def openssl_bn_cat (len : Nat) (x : Nat) (y : Option Nat) : Bytes :=
  match y with
  | some yv => bn2binFixed len x ++ bn2binFixed len yv
  | none => bn2binFixed len x

/-- Modelled from the spec: diffie_hellman_verify_value lives in the generic
diffie_hellman.c, which is not among the sources under verification.  It
rejects a public value whose length is not the expected public-value length of
the group, which for ECP groups is both coordinates, 2 × field_byte_length
bytes. -/
def diffie_hellman_verify_value (flen : Nat) (value : Bytes) : Bool :=
  decide (value.length = 2 * flen)

/-- Modelled from the spec: the settings collaborator
lib->settings->get_bool(key, deflt) returns the configured Boolean when the
key is set and the supplied default otherwise. -/
def settings_get_bool (cfg : Option Bool) (deflt : Bool) : Bool := cfg.getD deflt

/-- Private data of a session (struct private_openssl_ec_diffie_hellman_t):
the key pair d and Q inside the EC_KEY, the peer public point, the stored
shared secret chunk and the computed flag. -/
structure DHState (p : Nat) where
  d : Nat
  Q : AffPoint (ZMod p)
  pub_key : AffPoint (ZMod p)
  shared_secret : Bytes
  computed : Bool

/-- chunk2ecp from the source: split the chunk into x and y, install the
affine coordinates into the point (EC_POINT_set_affine_coordinates_GFp mutates
the point even when the subsequent on-curve check fails), then check curve
membership.  allocOk models the BN_CTX_new and BN_CTX_get allocations, all of
which abort before any mutation. -/
def chunk2ecp (g : ECGroup p) (chunk : Bytes) (point : AffPoint (ZMod p))
    (allocOk : Bool) : Bool × AffPoint (ZMod p) :=
  if ¬ allocOk then (false, point)
  else
    match openssl_bn_split (fieldLen p) chunk with
    | none => (false, point)
    | some (xn, yn) =>
      let P : AffPoint (ZMod p) := some ((xn : ZMod p), (yn : ZMod p))
      if isOnCurve g.a g.b P then (true, P) else (false, P)

/-- ecp2chunk from the source: extract the affine coordinates (which fails
exactly on the point at infinity), drop y under the x-coordinate-only policy,
and concatenate fixed-width encodings.  allocOk models the BN_CTX and
openssl_bn_cat allocations, whose failure leaves the output chunk unset. -/
def ecp2chunk (g : ECGroup p) (point : AffPoint (ZMod p)) (x_coordinate_only : Bool)
    (allocOk : Bool) : Option Bytes :=
  if ¬ allocOk then none
  else
    match point with
    | none => none
    | some (x, y) =>
      some (openssl_bn_cat (fieldLen p) x.val
        (if x_coordinate_only then none else some y.val))

/-- compute_shared_key from the source: multiply the peer point by the private
scalar, then encode the result under the x-coordinate-only policy read from
the settings collaborator with default TRUE.  allocOk models the EC_POINT_new
and EC_POINT_mul failures, encAllocOk the allocations inside ecp2chunk. -/
def compute_shared_key (g : ECGroup p) (st : DHState p) (cfg : Option Bool)
    (allocOk encAllocOk : Bool) : Option Bytes :=
  if ¬ allocOk then none
  else
    ecp2chunk g (ecSmul g.a g.b st.d st.pub_key) (settings_get_bool cfg true) encAllocOk

/-- set_other_public_value from the source: length check, decode into the
stored peer point, wipe the old secret, recompute, store, set computed. -/
def set_other_public_value (g : ECGroup p) (st : DHState p) (value : Bytes)
    (cfg : Option Bool) (decAllocOk cmpAllocOk encAllocOk : Bool) :
    Bool × DHState p :=
  if ¬ diffie_hellman_verify_value (fieldLen p) value then (false, st)
  else
    let dec := chunk2ecp g value st.pub_key decAllocOk
    let st1 : DHState p := ⟨st.d, st.Q, dec.2, st.shared_secret, st.computed⟩
    if ¬ dec.1 then (false, st1)
    else
      let st2 : DHState p := ⟨st1.d, st1.Q, st1.pub_key, [], st1.computed⟩
      match compute_shared_key g st2 cfg cmpAllocOk encAllocOk with
      | none => (false, st2)
      | some s => (true, ⟨st2.d, st2.Q, st2.pub_key, s, true⟩)

/-- get_my_public_value from the source: encode the local public point with
both coordinates; the Boolean result of ecp2chunk is discarded and TRUE is
returned unconditionally. -/
def get_my_public_value (g : ECGroup p) (st : DHState p) (allocOk : Bool) :
    Bool × Option Bytes :=
  (true, ecp2chunk g st.Q false allocOk)

/-- set_private_value from the source: parse the scalar, compute the public
point, then install the private scalar and the public point in that order,
each installation being a separate fallible call. -/
def set_private_value (g : ECGroup p) (st : DHState p) (value : Bytes)
    (parseOk newOk mulOk setPrivOk setPubOk : Bool) : Bool × DHState p :=
  if ¬ parseOk then (false, st)
  else
    let priv := bin2bn value
    if ¬ newOk then (false, st)
    else if ¬ mulOk then (false, st)
    else
      let pub := ecSmul g.a g.b priv (some (g.Gx, g.Gy))
      if ¬ setPrivOk then (false, st)
      else
        let st1 : DHState p := ⟨priv, st.Q, st.pub_key, st.shared_secret, st.computed⟩
        if ¬ setPubOk then (false, st1)
        else (true, ⟨priv, pub, st.pub_key, st.shared_secret, st.computed⟩)

/-- get_shared_secret from the source: a clone of the stored secret when the
computed flag is set, a failure otherwise. -/
def get_shared_secret (st : DHState p) : Bool × Option Bytes :=
  if ¬ st.computed then (false, none)
  else (true, some st.shared_secret)

/-- openssl_ec_diffie_hellman_create: the session starts with a freshly
generated key pair (the random scalar d drawn by EC_KEY_generate_key is a
parameter of the model), the peer point fresh from EC_POINT_new (at infinity),
an empty shared secret and computed = false. -/
def create (g : ECGroup p) (d : Nat) : DHState p :=
  ⟨d, ecSmul g.a g.b d (some (g.Gx, g.Gy)), none, [], false⟩

/-- The mutating operations of a session, each carrying its inputs and the
success flags of its fallible external calls. -/
inductive Op (p : Nat) where
  | setOther (value : Bytes) (cfg : Option Bool) (decAllocOk cmpAllocOk encAllocOk : Bool)
  | setPriv (value : Bytes) (parseOk newOk mulOk setPrivOk setPubOk : Bool)

/-- One mutating call on a session. -/
def step (g : ECGroup p) (st : DHState p) : Op p → Bool × DHState p
  | Op.setOther value cfg dOk cOk eOk => set_other_public_value g st value cfg dOk cOk eOk
  | Op.setPriv value e1 e2 e3 e4 e5 => set_private_value g st value e1 e2 e3 e4 e5

/-- Run a list of mutating calls; the reachable states of a session are the
results of run from a freshly created state. -/
def run (g : ECGroup p) (st : DHState p) : List (Op p) → DHState p
  | [] => st
  | op :: rest => run g (step g st op).2 rest

/-- Ghost flag for the invariant exactly as the spec states it: set when a
set_other_public_value call fully succeeds (validated peer value accepted and
scalar multiplication and encoding succeeded), cleared by a key-pair change
(a successful set_private_value). -/
def sinceKeyChange (g : ECGroup p) (st : DHState p) (ghost : Bool) :
    List (Op p) → Bool
  | [] => ghost
  | op :: rest =>
    let r := step g st op
    let ghost2 :=
      match op with
      | Op.setOther _ _ _ _ _ => if r.1 then true else ghost
      | Op.setPriv _ _ _ _ _ _ => if r.1 then false else ghost
    sinceKeyChange g r.2 ghost2 rest

/-- Whether a set_other_public_value call on state st accepts its peer value,
meaning the length check and the decode (with on-curve check) both pass. -/
def acceptsPeer (g : ECGroup p) (st : DHState p) (value : Bytes)
    (decAllocOk : Bool) : Bool :=
  diffie_hellman_verify_value (fieldLen p) value && (chunk2ecp g value st.pub_key decAllocOk).1

/-- Ghost flags for the amended session invariant.  The first flag records
whether some set_other_public_value call has fully succeeded since creation
(nothing ever clears it); the second records whether the most recent call that
accepted a peer value also completed the secret computation, i.e. whether a
secret is currently stored. -/
def ghostFlags (g : ECGroup p) (st : DHState p) (gc gs : Bool) :
    List (Op p) → Bool × Bool
  | [] => (gc, gs)
  | op :: rest =>
    let r := step g st op
    let next :=
      match op with
      | Op.setOther value _ dOk _ _ =>
        (gc || r.1, if acceptsPeer g st value dOk then r.1 else gs)
      | Op.setPriv _ _ _ _ _ _ => (gc, gs)
    ghostFlags g r.2 next.1 next.2 rest

/-- Well-formedness of a curve group as delivered by the Curve Registry and
the Domain-Parameter Builder: the curve is nonsingular, the generator lies on
the curve and has prime order q. -/
def GroupOK (g : ECGroup p) : Prop :=
  (Wc g.a g.b).Δ ≠ 0 ∧
  (Wc g.a g.b).Equation g.Gx g.Gy ∧
  Nat.Prime g.q ∧
  ecSmul g.a g.b g.q (some (g.Gx, g.Gy)) = none

/-- A private scalar as produced by key generation: in the range [1, q-1]. -/
def ValidScalar (g : ECGroup p) (d : Nat) : Prop := 0 < d ∧ d < g.q

end SessionDefs

instance fact_prime_five : Fact (Nat.Prime 5) := ⟨by norm_num⟩

/-- A small concrete curve group over GF(5), y^2 = x^3 + x + 1, with generator
(2, 1) of prime order 3, used to instantiate the theorems on concrete
inputs. -/
def g5 : ECGroup 5 := ⟨1, 1, 2, 1, 3⟩

/-! ## Theorems -/

@[simp]
lemma bn2binFixed_length (len n : Nat) : (bn2binFixed len n).length = len := by
  induction len with
  | zero => rfl
  | succ k ih => simp [bn2binFixed, ih]

lemma bin2bn_foldl_shift (bs : Bytes) (a : Nat) :
    bs.foldl (fun acc c => acc * 256 + c) a =
      a * 256 ^ bs.length + bs.foldl (fun acc c => acc * 256 + c) 0 := by
  induction bs generalizing a with
  | nil => simp
  | cons c bs ih =>
    simp only [List.foldl_cons, List.length_cons]
    rw [ih (a * 256 + c), ih (0 * 256 + c)]
    ring

lemma bin2bn_cons (c : Nat) (bs : Bytes) :
    bin2bn (c :: bs) = c * 256 ^ bs.length + bin2bn bs := by
  simp only [bin2bn, List.foldl_cons]
  rw [bin2bn_foldl_shift bs (0 * 256 + c)]
  ring

/-- Decoding a fixed-width big-endian encoding recovers the value modulo the
range of the encoding. -/
lemma bin2bn_bn2binFixed_mod (len n : Nat) :
    bin2bn (bn2binFixed len n) = n % 256 ^ len := by
  induction len with
  | zero => simp [bn2binFixed, bin2bn, Nat.mod_one]
  | succ k ih =>
    rw [bn2binFixed, bin2bn_cons, bn2binFixed_length, ih, pow_succ, Nat.mod_mul]
    ring

/-- Decoding a fixed-width big-endian encoding of an in-range value is exact. -/
lemma bin2bn_bn2binFixed (len n : Nat) (h : n < 256 ^ len) :
    bin2bn (bn2binFixed len n) = n := by
  rw [bin2bn_bn2binFixed_mod, Nat.mod_eq_of_lt h]

lemma bitLenAux_spec (fuel : Nat) : ∀ n, n ≤ fuel → n < 2 ^ bitLenAux fuel n := by
  induction fuel with
  | zero =>
    intro n hn
    interval_cases n
    simp [bitLenAux]
  | succ k ih =>
    intro n hn
    by_cases h0 : n = 0
    · simp [bitLenAux, h0]
    · rw [bitLenAux, if_neg h0]
      have hdiv : n / 2 ≤ k := by omega
      have h1 := ih (n / 2) hdiv
      rw [pow_succ]
      omega

lemma lt_two_pow_bitLen (n : Nat) : n < 2 ^ bitLen n :=
  bitLenAux_spec n n le_rfl

lemma lt_256_pow_fieldLen (p : Nat) : p < 256 ^ fieldLen p := by
  have h1 : p < 2 ^ bitLen p := lt_two_pow_bitLen p
  have h2 : bitLen p ≤ 8 * fieldLen p := by
    unfold fieldLen; omega
  calc p < 2 ^ bitLen p := h1
    _ ≤ 2 ^ (8 * fieldLen p) := Nat.pow_le_pow_right (by norm_num) h2
    _ = 256 ^ fieldLen p := by
        rw [pow_mul]; norm_num

lemma bitLen_pos (n : Nat) (hn : 1 ≤ n) : 1 ≤ bitLen n := by
  obtain ⟨k, rfl⟩ : ∃ k, n = k + 1 := ⟨n - 1, by omega⟩
  rw [bitLen, bitLenAux, if_neg (by omega : ¬ k + 1 = 0)]
  omega

lemma fieldLen_pos (p : Nat) (hp : 2 ≤ p) : 0 < fieldLen p := by
  have h1 := bitLen_pos p (by omega)
  unfold fieldLen
  omega

section CurveLemmas

open WeierstrassCurve.Affine

lemma equation_Wc {F : Type} [CommRing F] (a b x y : F) :
    (Wc a b).Equation x y ↔ y ^ 2 = x ^ 3 + a * x + b := by
  rw [WeierstrassCurve.Affine.equation_iff]
  simp only [Wc]
  constructor <;> intro h <;> linear_combination h

lemma negY_Wc {F : Type} [CommRing F] (a b x y : F) : (Wc a b).negY x y = -y := by
  simp [WeierstrassCurve.Affine.negY, Wc]

variable {p : Nat} [Fact (Nat.Prime p)]

lemma isOnCurve_some (a b x y : ZMod p) :
    isOnCurve a b (some (x, y)) = true ↔ (Wc a b).Equation x y := by
  simp [isOnCurve, equation_Wc]

lemma zinv_eq (x : ZMod p) : zinv x = x⁻¹ := by
  by_cases h : x = 0
  · simp [zinv, h]
  · have h2 : 2 ≤ p := (Fact.out : Nat.Prime p).two_le
    have h1 : x * x ^ (p - 2) = 1 := by
      rw [← pow_succ' x (p - 2)]
      have he : p - 2 + 1 = p - 1 := by omega
      rw [he]
      exact ZMod.pow_card_sub_one_eq_one h
    rw [zinv, if_neg h]
    exact (inv_eq_of_mul_eq_one_right h1).symm

lemma zdiv_eq (x y : ZMod p) : zdiv x y = x / y := by
  rw [zdiv, zinv_eq, div_eq_mul_inv]

lemma eslope_eq (a b x₁ x₂ y₁ y₂ : ZMod p) :
    eslope a b x₁ x₂ y₁ y₂ = (Wc a b).slope x₁ x₂ y₁ y₂ := by
  unfold eslope
  by_cases hx : x₁ = x₂
  · by_cases hy : y₁ = (Wc a b).negY x₂ y₂
    · rw [if_pos hx, if_pos hy, slope_of_Y_eq hx hy]
    · rw [if_pos hx, if_neg hy, slope_of_Y_ne hx hy, zdiv_eq]
  · rw [if_neg hx, slope_of_X_ne hx, zdiv_eq]

@[simp]
lemma ecAdd_none_left (a b : ZMod p) (P : AffPoint (ZMod p)) : ecAdd a b none P = P := by
  cases P with
  | none => rfl
  | some pr => obtain ⟨x, y⟩ := pr; rfl

@[simp]
lemma ecAdd_none_right (a b : ZMod p) (P : AffPoint (ZMod p)) : ecAdd a b P none = P := by
  cases P with
  | none => rfl
  | some pr => obtain ⟨x, y⟩ := pr; rfl

lemma ecAdd_some_some (a b x₁ y₁ x₂ y₂ : ZMod p) :
    ecAdd a b (some (x₁, y₁)) (some (x₂, y₂)) =
      if x₁ = x₂ ∧ y₁ = (Wc a b).negY x₂ y₂ then none
      else
        some ((Wc a b).addX x₁ x₂ (eslope a b x₁ x₂ y₁ y₂),
              (Wc a b).addY x₁ x₂ y₁ (eslope a b x₁ x₂ y₁ y₂)) := rfl

@[simp]
lemma toAff_zero (a b : ZMod p) : toAff (0 : (Wc a b).Point) = none := rfl

@[simp]
lemma toAff_some {a b x y : ZMod p} (h : (Wc a b).Nonsingular x y) :
    toAff (WeierstrassCurve.Affine.Point.some h) = some (x, y) := rfl

lemma toAff_eq_none {a b : ZMod p} (P : (Wc a b).Point) : toAff P = none ↔ P = 0 := by
  cases P with
  | zero => simp [toAff, WeierstrassCurve.Affine.Point.zero_def]
  | @some x y h =>
    simp only [toAff_some, Option.some_ne_none, false_iff]
    exact WeierstrassCurve.Affine.Point.some_ne_zero h

lemma equation_of_toAff {a b : ZMod p} (P : (Wc a b).Point) (x y : ZMod p)
    (h : toAff P = some (x, y)) : (Wc a b).Equation x y := by
  cases P with
  | zero => simp [toAff, WeierstrassCurve.Affine.Point.zero_def] at h
  | @some u v hn =>
    simp only [toAff_some, Option.some_inj, Prod.mk.injEq] at h
    obtain ⟨rfl, rfl⟩ := h
    exact hn.1

/-- Point addition on the executable affine representation agrees with the
Mathlib group law on nonsingular points. -/
lemma toAff_add {a b : ZMod p} (P Q : (Wc a b).Point) :
    toAff (P + Q) = ecAdd a b (toAff P) (toAff Q) := by
  cases P with
  | zero =>
    rw [WeierstrassCurve.Affine.Point.zero_def, zero_add, toAff_zero, ecAdd_none_left]
  | @some x₁ y₁ h₁ =>
    cases Q with
    | zero =>
      rw [WeierstrassCurve.Affine.Point.zero_def, add_zero, toAff_zero, ecAdd_none_right]
    | @some x₂ y₂ h₂ =>
      by_cases hxy : x₁ = x₂ ∧ y₁ = (Wc a b).negY x₂ y₂
      · rw [WeierstrassCurve.Affine.Point.add_of_Y_eq hxy.1 hxy.2, toAff_zero,
          toAff_some, toAff_some, ecAdd_some_some, if_pos hxy]
      · have hxy2 : x₁ = x₂ → y₁ ≠ (Wc a b).negY x₂ y₂ := fun hx hy => hxy ⟨hx, hy⟩
        rw [WeierstrassCurve.Affine.Point.add_of_imp hxy2, toAff_some, toAff_some,
          toAff_some, ecAdd_some_some, if_neg hxy, eslope_eq]

/-- Scalar multiplication on the executable affine representation agrees with
the Mathlib group law on nonsingular points. -/
lemma toAff_nsmul {a b : ZMod p} (n : Nat) (P : (Wc a b).Point) :
    toAff (n • P) = ecSmul a b n (toAff P) := by
  induction n with
  | zero => rw [zero_nsmul]; rfl
  | succ k ih => rw [succ_nsmul, toAff_add, ih]; rfl

/-- Scalar multiplications commute on any point of the curve: the algebraic
heart of ECDH symmetry. -/
lemma ecSmul_comm {a b : ZMod p} (d₁ d₂ : Nat) (P : (Wc a b).Point) :
    ecSmul a b d₁ (ecSmul a b d₂ (toAff P)) = ecSmul a b d₂ (ecSmul a b d₁ (toAff P)) := by
  rw [← toAff_nsmul, ← toAff_nsmul, ← toAff_nsmul, ← toAff_nsmul,
    ← mul_nsmul, ← mul_nsmul, mul_comm]

end CurveLemmas

section SessionLemmas

open WeierstrassCurve.Affine

variable {p : Nat} [Fact (Nat.Prime p)]

lemma val_lt_256_pow (x : ZMod p) : x.val < 256 ^ fieldLen p :=
  lt_trans (ZMod.val_lt x) (lt_256_pow_fieldLen p)

lemma natCast_val_self (x : ZMod p) : ((x.val : Nat) : ZMod p) = x :=
  ZMod.natCast_rightInverse x

@[simp]
lemma cat_length_some (len x y : Nat) :
    (openssl_bn_cat len x (some y)).length = 2 * len := by
  show (bn2binFixed len x ++ bn2binFixed len y).length = 2 * len
  rw [List.length_append, bn2binFixed_length, bn2binFixed_length]
  omega

@[simp]
lemma cat_length_none (len x : Nat) : (openssl_bn_cat len x none).length = len := by
  show (bn2binFixed len x).length = len
  exact bn2binFixed_length len x

lemma cat_take (len x y : Nat) :
    (openssl_bn_cat len x (some y)).take len = bn2binFixed len x := by
  show (bn2binFixed len x ++ bn2binFixed len y).take len = bn2binFixed len x
  have h := List.take_left (bn2binFixed len x) (bn2binFixed len y)
  rwa [bn2binFixed_length] at h

lemma cat_drop (len x y : Nat) :
    (openssl_bn_cat len x (some y)).drop len = bn2binFixed len y := by
  show (bn2binFixed len x ++ bn2binFixed len y).drop len = bn2binFixed len y
  have h := List.drop_left (bn2binFixed len x) (bn2binFixed len y)
  rwa [bn2binFixed_length] at h

/-- Splitting the concatenation of the two fixed-width coordinate encodings
recovers both coordinate values. -/
lemma split_cat (x y : ZMod p) :
    openssl_bn_split (fieldLen p) (openssl_bn_cat (fieldLen p) x.val (some y.val)) =
      some (x.val, y.val) := by
  unfold openssl_bn_split
  rw [if_pos (cat_length_some (fieldLen p) x.val y.val), cat_take, cat_drop,
    bin2bn_bn2binFixed _ _ (val_lt_256_pow x), bin2bn_bn2binFixed _ _ (val_lt_256_pow y)]

/-- Decoding the full two-coordinate encoding of an on-curve point succeeds
and reproduces the point. -/
lemma chunk2ecp_cat (g : ECGroup p) (x y : ZMod p) (P₀ : AffPoint (ZMod p))
    (heq : (Wc g.a g.b).Equation x y) :
    chunk2ecp g (openssl_bn_cat (fieldLen p) x.val (some y.val)) P₀ true =
      (true, some (x, y)) := by
  have hOn : isOnCurve g.a g.b (some (x, y)) = true := (isOnCurve_some _ _ _ _).mpr heq
  simp [chunk2ecp, split_cat, natCast_val_self, hOn]

lemma exists_onCurve_point {a b x y : ZMod p} (hΔ : (Wc a b).Δ ≠ 0)
    (heq : (Wc a b).Equation x y) :
    ∃ P : (Wc a b).Point, toAff P = some (x, y) :=
  ⟨WeierstrassCurve.Affine.Point.some (nonsingular_of_Δ_ne_zero _ heq hΔ), rfl⟩

/-- Any scalar multiple of the generator of a well-formed group is again a
point of the curve (in the image of toAff). -/
lemma ecSmul_G_toAff {g : ECGroup p} (hg : GroupOK g) (n : Nat) :
    ∃ Q : (Wc g.a g.b).Point, toAff Q = ecSmul g.a g.b n (some (g.Gx, g.Gy)) := by
  obtain ⟨GP, hGP⟩ := exists_onCurve_point hg.1 hg.2.1
  exact ⟨n • GP, by rw [toAff_nsmul, hGP]⟩

lemma ecSmul_G_equation {g : ECGroup p} (hg : GroupOK g) (n : Nat) (x y : ZMod p)
    (h : ecSmul g.a g.b n (some (g.Gx, g.Gy)) = some (x, y)) :
    (Wc g.a g.b).Equation x y := by
  obtain ⟨Q, hQ⟩ := ecSmul_G_toAff hg n
  exact equation_of_toAff Q x y (by rw [hQ, h])

/-- Iterated scalar multiplication of the generator collapses to a product
scalar. -/
lemma ecSmul_G_mul {g : ECGroup p} (hg : GroupOK g) (m n : Nat) :
    ecSmul g.a g.b n (ecSmul g.a g.b m (some (g.Gx, g.Gy))) =
      ecSmul g.a g.b (m * n) (some (g.Gx, g.Gy)) := by
  obtain ⟨GP, hGP⟩ := exists_onCurve_point hg.1 hg.2.1
  rw [← hGP, ← toAff_nsmul, ← toAff_nsmul, ← toAff_nsmul, ← mul_nsmul]

/-- Scalar multiplications of the generator commute. -/
lemma ecSmul_G_comm {g : ECGroup p} (hg : GroupOK g) (d₁ d₂ : Nat) :
    ecSmul g.a g.b d₁ (ecSmul g.a g.b d₂ (some (g.Gx, g.Gy))) =
      ecSmul g.a g.b d₂ (ecSmul g.a g.b d₁ (some (g.Gx, g.Gy))) := by
  rw [ecSmul_G_mul hg, ecSmul_G_mul hg, mul_comm]

/-- A scalar that is not a multiple of the prime order q never sends the
generator to the point at infinity. -/
lemma ecSmul_G_ne_none {g : ECGroup p} (hg : GroupOK g) (d : Nat) (hd : ¬ g.q ∣ d) :
    ecSmul g.a g.b d (some (g.Gx, g.Gy)) ≠ none := by
  obtain ⟨hΔ, heq, hq, hord⟩ := hg
  obtain ⟨GP, hGP⟩ := exists_onCurve_point hΔ heq
  haveI : Fact (Nat.Prime g.q) := ⟨hq⟩
  have hq0 : g.q • GP = 0 := by
    have h1 : toAff (g.q • GP) = none := by rw [toAff_nsmul, hGP, hord]
    exact (toAff_eq_none _).mp h1
  have hGP0 : GP ≠ 0 := by
    intro h0
    rw [h0, toAff_zero] at hGP
    exact Option.noConfusion hGP
  have hordG : addOrderOf GP = g.q := addOrderOf_eq_prime hq0 hGP0
  intro hcon
  have h2 : toAff (d • GP) = none := by rw [toAff_nsmul, hGP, hcon]
  have h4 : g.q ∣ d := by
    rw [← hordG]
    exact addOrderOf_dvd_iff_nsmul_eq_zero.mpr ((toAff_eq_none _).mp h2)
  exact hd h4

lemma not_dvd_of_valid {g : ECGroup p} {d : Nat} (hd : ValidScalar g d) : ¬ g.q ∣ d := by
  intro hdvd
  rcases hd with ⟨h0, h1⟩
  have := Nat.le_of_dvd h0 hdvd
  omega

lemma not_dvd_mul {g : ECGroup p} (hg : GroupOK g) {d₁ d₂ : Nat}
    (h₁ : ¬ g.q ∣ d₁) (h₂ : ¬ g.q ∣ d₂) : ¬ g.q ∣ d₁ * d₂ := by
  intro h
  rcases (hg.2.2.1.dvd_mul).mp h with h | h
  · exact h₁ h
  · exact h₂ h

/-- A generated key pair of a well-formed group has an affine (non-infinity)
public point. -/
lemma ecSmul_G_some {g : ECGroup p} (hg : GroupOK g) {d : Nat} (hd : ¬ g.q ∣ d) :
    ∃ x y : ZMod p, ecSmul g.a g.b d (some (g.Gx, g.Gy)) = some (x, y) := by
  cases hc : ecSmul g.a g.b d (some (g.Gx, g.Gy)) with
  | none => exact absurd hc (ecSmul_G_ne_none hg d hd)
  | some pr => obtain ⟨x, y⟩ := pr; exact ⟨x, y, rfl⟩

/-- The fully successful path of set_other_public_value: a well-formed peer
value decodes, the old secret is wiped, the new secret is computed from the
scalar multiple and stored under the configured encoding policy, and the
computed flag is raised. -/
lemma set_other_success (g : ECGroup p) (st : DHState p)
    (x y sx sy : ZMod p) (cfg : Option Bool)
    (heq : (Wc g.a g.b).Equation x y)
    (hsp : ecSmul g.a g.b st.d (some (x, y)) = some (sx, sy)) :
    set_other_public_value g st (openssl_bn_cat (fieldLen p) x.val (some y.val))
        cfg true true true =
      (true, ⟨st.d, st.Q, some (x, y),
        openssl_bn_cat (fieldLen p) sx.val
          (if settings_get_bool cfg true then none else some sy.val), true⟩) := by
  have hver : diffie_hellman_verify_value (fieldLen p)
      (openssl_bn_cat (fieldLen p) x.val (some y.val)) = true := by
    simp [diffie_hellman_verify_value]
  have hdec := chunk2ecp_cat g x y st.pub_key heq
  simp [set_other_public_value, hver, hdec, compute_shared_key, ecp2chunk, hsp]

/-- The public value of a freshly created session with an affine public point
is the full two-coordinate encoding of that point. -/
lemma get_my_public_value_create (g : ECGroup p) (d : Nat) {x y : ZMod p} {v : Bytes}
    (hQ : ecSmul g.a g.b d (some (g.Gx, g.Gy)) = some (x, y))
    (hv : (get_my_public_value g (create g d) true).2 = some v) :
    v = openssl_bn_cat (fieldLen p) x.val (some y.val) := by
  rw [get_my_public_value] at hv
  simp only [create] at hv
  rw [hQ] at hv
  simp [ecp2chunk] at hv
  exact hv.symm

/-- A secret produced by compute_shared_key is never the empty byte string:
it holds at least one field element, and the field has at least one byte. -/
lemma compute_shared_key_nonempty (g : ECGroup p) (st : DHState p)
    (cfg : Option Bool) (aOk eOk : Bool) (s : Bytes)
    (h : compute_shared_key g st cfg aOk eOk = some s) : s ≠ [] := by
  have hflen : 0 < fieldLen p := fieldLen_pos p (Fact.out : Nat.Prime p).two_le
  unfold compute_shared_key ecp2chunk at h
  cases aOk with
  | false => simp at h
  | true =>
    cases eOk with
    | false => simp at h
    | true =>
      cases hpt : ecSmul g.a g.b st.d st.pub_key with
      | none => rw [hpt] at h; simp at h
      | some pr =>
        obtain ⟨x, y⟩ := pr
        rw [hpt] at h
        simp at h
        intro hs
        rw [hs] at h
        cases hxo : settings_get_bool cfg true with
        | false =>
          rw [hxo] at h
          have := congrArg List.length h
          simp at this
          omega
        | true =>
          rw [hxo] at h
          have := congrArg List.length h
          simp at this
          omega

/-- set_private_value never changes the shared secret or the computed flag,
whatever its outcome. -/
lemma set_private_value_preserves (g : ECGroup p) (st : DHState p) (value : Bytes)
    (e1 e2 e3 e4 e5 : Bool) :
    (set_private_value g st value e1 e2 e3 e4 e5).2.computed = st.computed ∧
    (set_private_value g st value e1 e2 e3 e4 e5).2.shared_secret = st.shared_secret := by
  cases e1 <;> cases e2 <;> cases e3 <;> cases e4 <;> cases e5 <;>
    simp [set_private_value]

/-- Exhaustive outcome analysis of set_other_public_value with respect to the
computed flag and the stored secret. -/
lemma set_other_outcome (g : ECGroup p) (st : DHState p) (value : Bytes)
    (cfg : Option Bool) (dOk cOk eOk : Bool) :
    (acceptsPeer g st value dOk = false →
      (set_other_public_value g st value cfg dOk cOk eOk).1 = false ∧
      (set_other_public_value g st value cfg dOk cOk eOk).2.computed = st.computed ∧
      (set_other_public_value g st value cfg dOk cOk eOk).2.shared_secret =
        st.shared_secret) ∧
    (acceptsPeer g st value dOk = true →
      ((set_other_public_value g st value cfg dOk cOk eOk).1 = true →
        (set_other_public_value g st value cfg dOk cOk eOk).2.computed = true ∧
        (set_other_public_value g st value cfg dOk cOk eOk).2.shared_secret ≠ []) ∧
      ((set_other_public_value g st value cfg dOk cOk eOk).1 = false →
        (set_other_public_value g st value cfg dOk cOk eOk).2.computed = st.computed ∧
        (set_other_public_value g st value cfg dOk cOk eOk).2.shared_secret = [])) := by
  unfold acceptsPeer set_other_public_value
  cases hver : diffie_hellman_verify_value (fieldLen p) value with
  | false => simp [hver]
  | true =>
    cases hdec : (chunk2ecp g value st.pub_key dOk).1 with
    | false => simp [hdec]
    | true =>
      simp only [hver, hdec, Bool.true_and, Bool.not_true, not_true_eq_false,
        false_implies, if_false, Bool.false_eq_true, ite_false, true_and,
        Bool.true_eq_false, false_and, IsEmpty.forall_iff, forall_const]
      cases hcmp : compute_shared_key g
          ⟨st.d, st.Q, (chunk2ecp g value st.pub_key dOk).2, [], st.computed⟩
          cfg cOk eOk with
      | none => simp [hcmp]
      | some s =>
        simp [hcmp]
        exact compute_shared_key_nonempty g _ cfg cOk eOk s hcmp

/-- The amended session invariant, proved by induction along the trace. -/
lemma ghost_invariant (g : ECGroup p) (trace : List (Op p)) :
    ∀ (st : DHState p) (gc gs : Bool),
      st.computed = gc → (st.shared_secret ≠ [] ↔ gs = true) →
      ((run g st trace).computed = (ghostFlags g st gc gs trace).1 ∧
       ((run g st trace).shared_secret ≠ [] ↔
         (ghostFlags g st gc gs trace).2 = true)) := by
  induction trace with
  | nil => intro st gc gs h1 h2; exact ⟨h1, h2⟩
  | cons op rest ih =>
    intro st gc gs h1 h2
    show (run g (step g st op).2 rest).computed = _ ∧ _
    cases op with
    | setPriv value e1 e2 e3 e4 e5 =>
      have hpres := set_private_value_preserves g st value e1 e2 e3 e4 e5
      refine ih _ gc gs ?_ ?_
      · rw [show (step g st (Op.setPriv value e1 e2 e3 e4 e5)).2 =
            (set_private_value g st value e1 e2 e3 e4 e5).2 from rfl, hpres.1, h1]
      · rw [show (step g st (Op.setPriv value e1 e2 e3 e4 e5)).2 =
            (set_private_value g st value e1 e2 e3 e4 e5).2 from rfl, hpres.2]
        exact h2
    | setOther value cfg dOk cOk eOk =>
      have hout := set_other_outcome g st value cfg dOk cOk eOk
      have hstep : (step g st (Op.setOther value cfg dOk cOk eOk)) =
          set_other_public_value g st value cfg dOk cOk eOk := rfl
      cases hacc : acceptsPeer g st value dOk with
      | false =>
        obtain ⟨hr, hc, hs⟩ := hout.1 hacc
        have := ih (set_other_public_value g st value cfg dOk cOk eOk).2 gc gs
          (by rw [hc, h1]) (by rw [hs]; exact h2)
        show (run g (set_other_public_value g st value cfg dOk cOk eOk).2 rest).computed =
            (ghostFlags g st gc gs (Op.setOther value cfg dOk cOk eOk :: rest)).1 ∧ _
        rw [show ghostFlags g st gc gs (Op.setOther value cfg dOk cOk eOk :: rest) =
            ghostFlags g (set_other_public_value g st value cfg dOk cOk eOk).2
              (gc || (set_other_public_value g st value cfg dOk cOk eOk).1)
              (if acceptsPeer g st value dOk then
                (set_other_public_value g st value cfg dOk cOk eOk).1 else gs)
              rest from rfl, hacc, hr]
        simpa using this
      | true =>
        cases hres : (set_other_public_value g st value cfg dOk cOk eOk).1 with
        | true =>
          obtain ⟨hc, hs⟩ := (hout.2 hacc).1 hres
          have := ih (set_other_public_value g st value cfg dOk cOk eOk).2 true true
            hc (by simp [hs])
          show (run g (set_other_public_value g st value cfg dOk cOk eOk).2 rest).computed =
              (ghostFlags g st gc gs (Op.setOther value cfg dOk cOk eOk :: rest)).1 ∧ _
          rw [show ghostFlags g st gc gs (Op.setOther value cfg dOk cOk eOk :: rest) =
              ghostFlags g (set_other_public_value g st value cfg dOk cOk eOk).2
                (gc || (set_other_public_value g st value cfg dOk cOk eOk).1)
                (if acceptsPeer g st value dOk then
                  (set_other_public_value g st value cfg dOk cOk eOk).1 else gs)
                rest from rfl, hacc, hres]
          simpa using this
        | false =>
          obtain ⟨hc, hs⟩ := (hout.2 hacc).2 hres
          have := ih (set_other_public_value g st value cfg dOk cOk eOk).2 gc false
            (by rw [hc, h1]) (by simp [hs])
          show (run g (set_other_public_value g st value cfg dOk cOk eOk).2 rest).computed =
              (ghostFlags g st gc gs (Op.setOther value cfg dOk cOk eOk :: rest)).1 ∧ _
          rw [show ghostFlags g st gc gs (Op.setOther value cfg dOk cOk eOk :: rest) =
              ghostFlags g (set_other_public_value g st value cfg dOk cOk eOk).2
                (gc || (set_other_public_value g st value cfg dOk cOk eOk).1)
                (if acceptsPeer g st value dOk then
                  (set_other_public_value g st value cfg dOk cOk eOk).1 else gs)
                rest from rfl, hacc, hres]
          simpa using this

end SessionLemmas

section Claims

open WeierstrassCurve.Affine

/-- C5: for every curve group and every byte string, point decoding fails
whenever the coordinate split fails (here: an allocation failure), the input
length is not exactly 2 × field_byte_length, or the reconstructed point does
not satisfy the curve equation; and on success the returned point is exactly
the decoded coordinate pair, never a substituted point-at-infinity or
default. -/
theorem C5_point_decode_validation {p : Nat} [Fact (Nat.Prime p)] (g : ECGroup p)
    (chunk : Bytes) (P₀ : AffPoint (ZMod p)) (allocOk : Bool) :
    ((chunk2ecp g chunk P₀ allocOk).1 = true ↔
      allocOk = true ∧ chunk.length = 2 * fieldLen p ∧
        (Wc g.a g.b).Equation ((bin2bn (chunk.take (fieldLen p)) : Nat) : ZMod p)
          ((bin2bn (chunk.drop (fieldLen p)) : Nat) : ZMod p)) ∧
    ((chunk2ecp g chunk P₀ allocOk).1 = true →
      (chunk2ecp g chunk P₀ allocOk).2 =
        some (((bin2bn (chunk.take (fieldLen p)) : Nat) : ZMod p),
              ((bin2bn (chunk.drop (fieldLen p)) : Nat) : ZMod p))) := by
  cases allocOk with
  | false => simp [chunk2ecp]
  | true =>
    by_cases hL : chunk.length = 2 * fieldLen p
    · by_cases hOn : isOnCurve g.a g.b
        (some (((bin2bn (chunk.take (fieldLen p)) : Nat) : ZMod p),
               ((bin2bn (chunk.drop (fieldLen p)) : Nat) : ZMod p))) = true
      · have hEq := (isOnCurve_some _ _ _ _).mp hOn
        simp [chunk2ecp, openssl_bn_split, hL, hOn, hEq]
      · have hEq := fun h => hOn ((isOnCurve_some _ _ _ _).mpr h)
        simp [chunk2ecp, openssl_bn_split, hL, hOn]
        exact fun h => absurd h hEq
    · simp [chunk2ecp, openssl_bn_split, hL]

/-- Witness for C5: a successful decode of the encoding of the on-curve point
(2, 1) over GF(5), established through the theorem itself. -/
theorem C5_point_decode_validation_witness :
    (chunk2ecp g5 [2, 1] none true).1 = true ∧
    (chunk2ecp g5 [2, 1] none true).2 =
      some (((bin2bn ([2, 1].take (fieldLen 5)) : Nat) : ZMod 5),
            ((bin2bn ([2, 1].drop (fieldLen 5)) : Nat) : ZMod 5)) := by
  have h := C5_point_decode_validation g5 [2, 1] none true
  have hok : (chunk2ecp g5 [2, 1] none true).1 = true :=
    h.1.mpr ⟨rfl, by decide, (equation_Wc _ _ _ _).mpr (by decide)⟩
  exact ⟨hok, h.2 hok⟩

/-- C6: decoding the full two-coordinate encoding of any affine point on the
curve (encode with x_coordinate_only = false, then decode) succeeds and
reproduces the coordinates of the point exactly. -/
theorem C6_point_codec_roundtrip {p : Nat} [Fact (Nat.Prime p)] (g : ECGroup p)
    (x y : ZMod p) (P₀ : AffPoint (ZMod p)) (v : Bytes)
    (heq : (Wc g.a g.b).Equation x y)
    (henc : ecp2chunk g (some (x, y)) false true = some v) :
    chunk2ecp g v P₀ true = (true, some (x, y)) := by
  have hv : v = openssl_bn_cat (fieldLen p) x.val (some y.val) := by
    simp [ecp2chunk] at henc
    exact henc.symm
  rw [hv]
  exact chunk2ecp_cat g x y P₀ heq

/-- Witness for C6: the round trip through the codec at the concrete on-curve
point (2, 1) over GF(5). -/
theorem C6_point_codec_roundtrip_witness :
    chunk2ecp g5 [2, 1] none true = (true, some (2, 1)) :=
  C6_point_codec_roundtrip g5 2 1 none [2, 1]
    ((equation_Wc _ _ _ _).mpr (by decide)) (by decide)

/-- C9: if the scalar multiplication of the peer point by the private scalar
yields the point at infinity, the shared-secret computation fails: no secret
is produced, and a set_other_public_value call reaching that computation
returns failure with the old secret wiped, nothing stored, and the computed
flag unchanged. -/
theorem C9_infinity_fails {p : Nat} [Fact (Nat.Prime p)] (g : ECGroup p)
    (st : DHState p) (value : Bytes) (cfg : Option Bool) (cOk eOk : Bool)
    (hver : diffie_hellman_verify_value (fieldLen p) value = true)
    (hdec : (chunk2ecp g value st.pub_key true).1 = true)
    (hinf : ecSmul g.a g.b st.d (chunk2ecp g value st.pub_key true).2 = none) :
    compute_shared_key g
        ⟨st.d, st.Q, (chunk2ecp g value st.pub_key true).2, [], st.computed⟩
        cfg cOk eOk = none ∧
    set_other_public_value g st value cfg true cOk eOk =
      (false, ⟨st.d, st.Q, (chunk2ecp g value st.pub_key true).2, [], st.computed⟩) := by
  have hcmp : compute_shared_key g
      ⟨st.d, st.Q, (chunk2ecp g value st.pub_key true).2, [], st.computed⟩
      cfg cOk eOk = none := by
    simp [compute_shared_key, ecp2chunk, hinf]
  refine ⟨hcmp, ?_⟩
  simp [set_other_public_value, hver, hdec, hcmp]

/-- Witness for C9: over GF(5) the decoded peer point (2, 1) has order 3, so a
session whose private scalar is 3 hits the point at infinity and the
computation fails. -/
theorem C9_infinity_fails_witness :
    compute_shared_key g5
        ⟨3, none, (chunk2ecp g5 [2, 1] none true).2, [], true⟩ none true true = none ∧
    set_other_public_value g5 ⟨3, none, none, [7], true⟩ [2, 1] none true true true =
      (false, ⟨3, none, (chunk2ecp g5 [2, 1] none true).2, [], true⟩) :=
  C9_infinity_fails g5 ⟨3, none, none, [7], true⟩ [2, 1] none true true
    (by decide) (by decide) (by decide)

/-- C10: get_my_public_value reports success on every call, its output is
exactly the result of the point encoder (so the encoder failure result is
discarded), and when the local public point cannot be encoded (for instance
because it is the point at infinity) the output value is left unset. -/
theorem C10_get_my_public_value_total {p : Nat} [Fact (Nat.Prime p)]
    (g : ECGroup p) (st : DHState p) (allocOk : Bool) :
    (get_my_public_value g st allocOk).1 = true ∧
    (get_my_public_value g st allocOk).2 = ecp2chunk g st.Q false allocOk ∧
    (st.Q = none → (get_my_public_value g st allocOk).2 = none) := by
  refine ⟨rfl, rfl, fun h => ?_⟩
  simp [get_my_public_value, ecp2chunk, h]

/-- Witness for C10: a session whose public point is the point at infinity
still answers TRUE, with the output value unset. -/
theorem C10_get_my_public_value_total_witness :
    (get_my_public_value g5 ⟨1, none, none, [], false⟩ true).1 = true ∧
    (get_my_public_value g5 ⟨1, none, none, [], false⟩ true).2 = none :=
  ⟨(C10_get_my_public_value_total g5 ⟨1, none, none, [], false⟩ true).1,
   (C10_get_my_public_value_total g5 ⟨1, none, none, [], false⟩ true).2.2 rfl⟩

/-- GroupOK holds for the concrete GF(5) group. -/
lemma g5_ok : GroupOK g5 :=
  ⟨by decide, (equation_Wc _ _ _ _).mpr (by decide), by norm_num [g5], by decide⟩

/-- C7: for every well-formed group and every generated private scalar, the
value returned by get_my_public_value on a fresh session is set, has exactly
2 × field_byte_length bytes, and decodes through the point codec back to a
point on the curve; the call itself reports success and the encoding always
carries both coordinates (independent of the shared-secret policy, which is
not consulted). -/
theorem C7_public_value_encoding {p : Nat} [Fact (Nat.Prime p)] (g : ECGroup p)
    (d : Nat) (hg : GroupOK g) (hd : ValidScalar g d) :
    ∃ v : Bytes,
      get_my_public_value g (create g d) true = (true, some v) ∧
      v.length = 2 * fieldLen p ∧
      ∀ P₀ : AffPoint (ZMod p), ∃ x y : ZMod p,
        chunk2ecp g v P₀ true = (true, some (x, y)) ∧ (Wc g.a g.b).Equation x y := by
  obtain ⟨x, y, hxy⟩ := ecSmul_G_some hg (not_dvd_of_valid hd)
  have heq : (Wc g.a g.b).Equation x y := ecSmul_G_equation hg d x y hxy
  refine ⟨openssl_bn_cat (fieldLen p) x.val (some y.val), ?_, ?_, ?_⟩
  · rw [get_my_public_value]
    simp only [create]
    rw [hxy]
    simp [ecp2chunk]
  · exact cat_length_some (fieldLen p) x.val y.val
  · intro P₀
    exact ⟨x, y, chunk2ecp_cat g x y P₀ heq, heq⟩

/-- Witness for C7: the fresh session with scalar 1 on the GF(5) group. -/
theorem C7_public_value_encoding_witness :
    ∃ v : Bytes,
      get_my_public_value g5 (create g5 1) true = (true, some v) ∧
      v.length = 2 * fieldLen 5 ∧
      ∀ P₀ : AffPoint (ZMod 5), ∃ x y : ZMod 5,
        chunk2ecp g5 v P₀ true = (true, some (x, y)) ∧ (Wc g5.a g5.b).Equation x y :=
  C7_public_value_encoding g5 1 g5_ok ⟨by decide, by decide⟩

/-- C8: for a pair of valid peers on the same group, the stored shared secret
has 2 × field_byte_length bytes when the x-coordinate-only policy is
configured false and field_byte_length bytes when it is configured true, the
x-coordinate bytes agreeing in both modes; and an absent configuration value
defaults the policy to true at secret-computation time. -/
theorem C8_policy_lengths {p : Nat} [Fact (Nat.Prime p)] (g : ECGroup p)
    (d₁ d₂ : Nat) (v₂ : Bytes)
    (hg : GroupOK g) (hd₁ : ValidScalar g d₁) (hd₂ : ValidScalar g d₂)
    (hv₂ : (get_my_public_value g (create g d₂) true).2 = some v₂) :
    ∃ sFull sX : Bytes,
      (set_other_public_value g (create g d₁) v₂ (some false) true true true).1 = true ∧
      (set_other_public_value g (create g d₁) v₂ (some false) true true true).2.shared_secret
        = sFull ∧
      (set_other_public_value g (create g d₁) v₂ (some true) true true true).1 = true ∧
      (set_other_public_value g (create g d₁) v₂ (some true) true true true).2.shared_secret
        = sX ∧
      sFull.length = 2 * fieldLen p ∧
      sX.length = fieldLen p ∧
      sFull.take (fieldLen p) = sX ∧
      set_other_public_value g (create g d₁) v₂ none true true true =
        set_other_public_value g (create g d₁) v₂ (some true) true true true := by
  obtain ⟨x₂, y₂, hQ₂⟩ := ecSmul_G_some hg (not_dvd_of_valid hd₂)
  have heq₂ : (Wc g.a g.b).Equation x₂ y₂ := ecSmul_G_equation hg d₂ x₂ y₂ hQ₂
  have hv₂e := get_my_public_value_create g d₂ hQ₂ hv₂
  have hsp : ∃ sx sy : ZMod p,
      ecSmul g.a g.b (create g d₁).d (some (x₂, y₂)) = some (sx, sy) := by
    show ∃ sx sy : ZMod p, ecSmul g.a g.b d₁ (some (x₂, y₂)) = some (sx, sy)
    rw [← hQ₂, ecSmul_G_mul hg]
    exact ecSmul_G_some hg
      (not_dvd_mul hg (not_dvd_of_valid hd₂) (not_dvd_of_valid hd₁))
  obtain ⟨sx, sy, hsp⟩ := hsp
  have hFull := set_other_success g (create g d₁) x₂ y₂ sx sy (some false) heq₂ hsp
  have hX := set_other_success g (create g d₁) x₂ y₂ sx sy (some true) heq₂ hsp
  have hD := set_other_success g (create g d₁) x₂ y₂ sx sy none heq₂ hsp
  rw [hv₂e]
  refine ⟨openssl_bn_cat (fieldLen p) sx.val (some sy.val),
          openssl_bn_cat (fieldLen p) sx.val none, ?_, ?_, ?_, ?_, ?_, ?_, ?_, ?_⟩
  · rw [hFull]
  · rw [hFull]; simp [settings_get_bool]
  · rw [hX]
  · rw [hX]; simp [settings_get_bool]
  · exact cat_length_some (fieldLen p) sx.val sy.val
  · exact cat_length_none (fieldLen p) sx.val
  · show (bn2binFixed (fieldLen p) sx.val ++ bn2binFixed (fieldLen p) sy.val).take
        (fieldLen p) = bn2binFixed (fieldLen p) sx.val
    exact cat_take (fieldLen p) sx.val sy.val
  · rw [hD, hX]; simp [settings_get_bool]

/-- Witness for C8: the two valid peers 1 and 2 on the GF(5) group. -/
theorem C8_policy_lengths_witness :
    ∃ sFull sX : Bytes,
      (set_other_public_value g5 (create g5 1) [2, 4] (some false) true true true).1 = true ∧
      (set_other_public_value g5 (create g5 1) [2, 4] (some false) true true true).2.shared_secret
        = sFull ∧
      (set_other_public_value g5 (create g5 1) [2, 4] (some true) true true true).1 = true ∧
      (set_other_public_value g5 (create g5 1) [2, 4] (some true) true true true).2.shared_secret
        = sX ∧
      sFull.length = 2 * fieldLen 5 ∧
      sX.length = fieldLen 5 ∧
      sFull.take (fieldLen 5) = sX ∧
      set_other_public_value g5 (create g5 1) [2, 4] none true true true =
        set_other_public_value g5 (create g5 1) [2, 4] (some true) true true true :=
  C8_policy_lengths g5 1 2 [2, 4] g5_ok ⟨by decide, by decide⟩ ⟨by decide, by decide⟩
    (by decide)

/-- C1: ECDH symmetry.  For every well-formed curve group and every two valid
key pairs on it, the session holding d1 after ingesting the public value of
the session holding d2 reports success and stores a shared secret identical to
the one produced by the session holding d2 after ingesting the public value of
the session holding d1, under the same x-coordinate-only policy. -/
theorem C1_ecdh_symmetry {p : Nat} [Fact (Nat.Prime p)] (g : ECGroup p)
    (d₁ d₂ : Nat) (v₁ v₂ : Bytes) (cfg : Option Bool)
    (hg : GroupOK g) (hd₁ : ValidScalar g d₁) (hd₂ : ValidScalar g d₂)
    (hv₁ : (get_my_public_value g (create g d₁) true).2 = some v₁)
    (hv₂ : (get_my_public_value g (create g d₂) true).2 = some v₂) :
    (set_other_public_value g (create g d₁) v₂ cfg true true true).1 = true ∧
    (set_other_public_value g (create g d₂) v₁ cfg true true true).1 = true ∧
    get_shared_secret (set_other_public_value g (create g d₁) v₂ cfg true true true).2 =
      get_shared_secret (set_other_public_value g (create g d₂) v₁ cfg true true true).2 := by
  obtain ⟨x₁, y₁, hQ₁⟩ := ecSmul_G_some hg (not_dvd_of_valid hd₁)
  obtain ⟨x₂, y₂, hQ₂⟩ := ecSmul_G_some hg (not_dvd_of_valid hd₂)
  have heq₁ : (Wc g.a g.b).Equation x₁ y₁ := ecSmul_G_equation hg d₁ x₁ y₁ hQ₁
  have heq₂ : (Wc g.a g.b).Equation x₂ y₂ := ecSmul_G_equation hg d₂ x₂ y₂ hQ₂
  have hv₁e := get_my_public_value_create g d₁ hQ₁ hv₁
  have hv₂e := get_my_public_value_create g d₂ hQ₂ hv₂
  have hsp12 : ecSmul g.a g.b d₁ (some (x₂, y₂)) =
      ecSmul g.a g.b (d₁ * d₂) (some (g.Gx, g.Gy)) := by
    rw [← hQ₂, ecSmul_G_mul hg, mul_comm]
  have hsp21 : ecSmul g.a g.b d₂ (some (x₁, y₁)) =
      ecSmul g.a g.b (d₁ * d₂) (some (g.Gx, g.Gy)) := by
    rw [← hQ₁, ecSmul_G_mul hg]
  obtain ⟨sx, sy, hs⟩ := ecSmul_G_some hg
    (not_dvd_mul hg (not_dvd_of_valid hd₁) (not_dvd_of_valid hd₂))
  have h1 := set_other_success g (create g d₁) x₂ y₂ sx sy cfg heq₂
    (by show ecSmul g.a g.b d₁ (some (x₂, y₂)) = _; rw [hsp12, hs])
  have h2 := set_other_success g (create g d₂) x₁ y₁ sx sy cfg heq₁
    (by show ecSmul g.a g.b d₂ (some (x₁, y₁)) = _; rw [hsp21, hs])
  rw [hv₁e, hv₂e, h1, h2]
  exact ⟨rfl, rfl, rfl⟩

/-- Witness for C1: the valid key pairs with scalars 1 and 2 on the GF(5)
group, whose public values are [2, 1] and [2, 4]. -/
theorem C1_ecdh_symmetry_witness :
    (set_other_public_value g5 (create g5 1) [2, 4] none true true true).1 = true ∧
    (set_other_public_value g5 (create g5 2) [2, 1] none true true true).1 = true ∧
    get_shared_secret (set_other_public_value g5 (create g5 1) [2, 4] none true true true).2 =
      get_shared_secret (set_other_public_value g5 (create g5 2) [2, 1] none true true true).2 :=
  C1_ecdh_symmetry g5 1 2 [2, 1] [2, 4] none g5_ok ⟨by decide, by decide⟩
    ⟨by decide, by decide⟩ (by decide) (by decide)

/-- Counterexample to C2 as stated: after a successful exchange followed by a
successful set_private_value, the session still has a stored secret and
computed = true, although no validated peer value has been accepted and no
multiplication has succeeded since that key-pair change, so the claimed
equivalence fails on this reachable state. -/
theorem C2_counterexample :
    ((run g5 (create g5 1)
        [Op.setOther [2, 1] none true true true,
         Op.setPriv [2] true true true true true]).shared_secret ≠ [] ∧
      (run g5 (create g5 1)
        [Op.setOther [2, 1] none true true true,
         Op.setPriv [2] true true true true true]).computed = true) ∧
    sinceKeyChange g5 (create g5 1) false
        [Op.setOther [2, 1] none true true true,
         Op.setPriv [2] true true true true true] = false := by
  decide

/-- C2 (amended): in every reachable session state, computed is true exactly
when some set_other_public_value call has fully succeeded since session
creation (neither later failures nor key-pair changes reset it), and a stored
SharedSecret exists (is nonempty) exactly when the most recent call that
accepted a peer value also completed the secret computation; a key-pair change
via set_private_value wipes neither the flag nor the secret. -/
theorem C2_session_invariant {p : Nat} [Fact (Nat.Prime p)] (g : ECGroup p)
    (d₀ : Nat) (trace : List (Op p)) :
    (run g (create g d₀) trace).computed =
      (ghostFlags g (create g d₀) false false trace).1 ∧
    ((run g (create g d₀) trace).shared_secret ≠ [] ↔
      (ghostFlags g (create g d₀) false false trace).2 = true) :=
  ghost_invariant g trace (create g d₀) false false rfl (by simp [create])

/-- Witness for C2 (amended): the invariant evaluated on a concrete two-step
trace over the GF(5) group. -/
theorem C2_session_invariant_witness :
    (run g5 (create g5 1)
        [Op.setOther [2, 1] none true true true,
         Op.setPriv [2] true true true true true]).computed =
      (ghostFlags g5 (create g5 1) false false
        [Op.setOther [2, 1] none true true true,
         Op.setPriv [2] true true true true true]).1 :=
  (C2_session_invariant g5 1
    [Op.setOther [2, 1] none true true true,
     Op.setPriv [2] true true true true true]).1

/-- Counterexample to C3 as stated: a session that holds a computed secret and
is then given a wrong-length peer value: the call fails, yet the previously
stored secret is still present afterwards instead of having been wiped. -/
theorem C3_counterexample :
    (set_other_public_value g5
        (run g5 (create g5 1) [Op.setOther [2, 1] none true true true])
        [] none true true true).1 = false ∧
    (set_other_public_value g5
        (run g5 (create g5 1) [Op.setOther [2, 1] none true true true])
        [] none true true true).2.shared_secret = [2] ∧
    (set_other_public_value g5
        (run g5 (create g5 1) [Op.setOther [2, 1] none true true true])
        [] none true true true).2.shared_secret ≠ [] := by
  decide

/-- C3 (amended): whenever set_other_public_value fails it returns failure and
leaves the computed flag exactly as it was; the previously stored secret is
wiped exactly when the failure occurred in the shared-secret computation step
(after the length check and the decode both passed), while on a length-check
or decode failure the previous secret is left in place. -/
theorem C3_failure_behavior {p : Nat} [Fact (Nat.Prime p)] (g : ECGroup p)
    (st : DHState p) (value : Bytes) (cfg : Option Bool) (dOk cOk eOk : Bool)
    (hfail : (set_other_public_value g st value cfg dOk cOk eOk).1 = false) :
    (set_other_public_value g st value cfg dOk cOk eOk).2.computed = st.computed ∧
    ((diffie_hellman_verify_value (fieldLen p) value = false ∨
        (chunk2ecp g value st.pub_key dOk).1 = false) →
      (set_other_public_value g st value cfg dOk cOk eOk).2.shared_secret =
        st.shared_secret) ∧
    (diffie_hellman_verify_value (fieldLen p) value = true →
      (chunk2ecp g value st.pub_key dOk).1 = true →
      (set_other_public_value g st value cfg dOk cOk eOk).2.shared_secret = []) := by
  have hout := set_other_outcome g st value cfg dOk cOk eOk
  cases hver : diffie_hellman_verify_value (fieldLen p) value with
  | false =>
    have hacc : acceptsPeer g st value dOk = false := by
      simp [acceptsPeer, hver]
    obtain ⟨_, hc, hs⟩ := hout.1 hacc
    exact ⟨hc, fun _ => hs, fun h => absurd h (by simp [hver])⟩
  | true =>
    cases hdec : (chunk2ecp g value st.pub_key dOk).1 with
    | false =>
      have hacc : acceptsPeer g st value dOk = false := by
        simp [acceptsPeer, hver, hdec]
      obtain ⟨_, hc, hs⟩ := hout.1 hacc
      refine ⟨hc, fun _ => hs, fun _ h => absurd h (by simp [hdec])⟩
    | true =>
      have hacc : acceptsPeer g st value dOk = true := by
        simp [acceptsPeer, hver, hdec]
      obtain ⟨hc, hs⟩ := (hout.2 hacc).2 hfail
      refine ⟨hc, fun h => ?_, fun _ _ => hs⟩
      rcases h with h | h
      · exact absurd h (by simp)
      · exact absurd h (by simp)

/-- Witness for C3 (amended): the failing wrong-length call of the
counterexample leaves the computed flag unchanged. -/
theorem C3_failure_behavior_witness :
    (set_other_public_value g5
        (run g5 (create g5 1) [Op.setOther [2, 1] none true true true])
        [] none true true true).2.computed =
      (run g5 (create g5 1) [Op.setOther [2, 1] none true true true]).computed :=
  (C3_failure_behavior g5
    (run g5 (create g5 1) [Op.setOther [2, 1] none true true true])
    [] none true true true (by decide)).1

/-- Counterexample to C4 as stated: when installing the public point fails
after the private scalar was already installed, set_private_value reports
failure yet the private scalar has changed, so the prior key pair is not
intact (and d and Q are no longer mutually consistent). -/
theorem C4_counterexample :
    (set_private_value g5 (create g5 1) [2] true true true true false).1 = false ∧
    (set_private_value g5 (create g5 1) [2] true true true true false).2.d = 2 ∧
    (create g5 1).d = 1 ∧
    (set_private_value g5 (create g5 1) [2] true true true true false).2.Q =
      (create g5 1).Q := by
  decide

/-- C4 (amended): if set_private_value fails at the scalar parse, at the
public-point computation, or at installing the private scalar, it reports
failure and leaves the prior key pair (both d and Q) intact; but if installing
the public point fails after the private scalar was installed, the session is
left with the new private scalar and the old public point. -/
theorem C4_private_value_atomicity {p : Nat} [Fact (Nat.Prime p)] (g : ECGroup p)
    (st : DHState p) (value : Bytes) (parseOk newOk mulOk setPrivOk setPubOk : Bool) :
    (¬ (parseOk = true ∧ newOk = true ∧ mulOk = true ∧ setPrivOk = true) →
      set_private_value g st value parseOk newOk mulOk setPrivOk setPubOk =
        (false, st)) ∧
    (parseOk = true → newOk = true → mulOk = true → setPrivOk = true →
      setPubOk = false →
      set_private_value g st value parseOk newOk mulOk setPrivOk setPubOk =
        (false, ⟨bin2bn value, st.Q, st.pub_key, st.shared_secret, st.computed⟩)) := by
  constructor
  · intro h
    cases parseOk <;> cases newOk <;> cases mulOk <;> cases setPrivOk <;>
      simp_all [set_private_value]
  · intro h1 h2 h3 h4 h5
    subst h1; subst h2; subst h3; subst h4; subst h5
    simp [set_private_value]

/-- Witness for C4 (amended): a parse failure leaves the freshly created
session untouched. -/
theorem C4_private_value_atomicity_witness :
    set_private_value g5 (create g5 1) [3] false true true true true =
      (false, create g5 1) :=
  (C4_private_value_atomicity g5 (create g5 1) [3] false true true true true).1
    (by simp)

end Claims

end ECDH
